import Mathlib

/-!
Verification of the layout algorithm of crevice-derive
(src/crevice-derive/src/layout.rs).

The derive macro `EmitOptions::emit` generates, for a record with named
fields, one const fn per field that computes the padding inserted before
that field, a `#[repr(C)]` struct interleaving `[u8; N]` padding arrays
with the fields' device types, a fold computing the struct alignment,
layout-trait constants, and conversion methods.  We embed the values those
generated items compute over an explicit list of per-field facts
(size / alignment / pad-at-end of the field's device type).
-/

/-- The per-type facts the generated code reads from a field's device type:
`size_of`, the layout trait's `ALIGNMENT` and `PAD_AT_END`. -/
structure FieldFact where
  size : Nat
  alignment : Nat
  pad_at_end : Bool
deriving Repr, DecidableEq

/-- Modelled from the spec: the body of `crevice::internal::align_offset` is
not under src/ (only its call site in the generated const fns is).  The spec
defines it as
`(required_alignment - running_offset mod required_alignment) mod required_alignment`,
the minimal non-negative value making `offset + result` a multiple of
`alignment`. -/
def align_offset (offset alignment : Nat) : Nat :=
  (alignment - offset % alignment) % alignment

/-- The field fact at index `i`, with an inert default out of range (the
generated code only ever reads indices below the field count). -/
def factAt (fields : List FieldFact) (i : Nat) : FieldFact :=
  (fields[i]?).getD ⟨0, 1, false⟩

/-- The `pad_at_end` expression of the generated align const fn for field
`i`: `0usize` for the first field, otherwise the previous field's
`ALIGNMENT` if its `PAD_AT_END` holds, else `0usize`. -/
def trailingReq (fields : List FieldFact) : Nat → Nat
  | 0 => 0
  | i + 1 =>
    let f := factAt fields i
    if f.pad_at_end then f.alignment else 0

/-- The alignment the generated const fn aligns field `i` up to:
`max(ALIGNMENT of field i, pad_at_end expression)`. -/
def requiredAlignment (fields : List FieldFact) (i : Nat) : Nat :=
  max (factAt fields i).alignment (trailingReq fields i)

/-- The running offset accumulated by the generated const fn for field `i`:
`offset += align_j(); offset += size_of(field_j)` over all `j < i`.
`fieldEnd fields i` is the byte offset just after field `i - 1`'s data. -/
def fieldEnd (fields : List FieldFact) : Nat → Nat
  | 0 => 0
  | i + 1 =>
    let off := fieldEnd fields i
    off + align_offset off (requiredAlignment fields i) + (factAt fields i).size

/-- The value of the generated align const fn for field `i`: the size of the
`[u8; _]` padding array emitted before field `i`. -/
def paddingBefore (fields : List FieldFact) (i : Nat) : Nat :=
  align_offset (fieldEnd fields i) (requiredAlignment fields i)

/-- The byte offset of field `i`'s data in the generated struct. -/
def offsetOf (fields : List FieldFact) (i : Nat) : Nat :=
  fieldEnd fields i + paddingBefore fields i

/-- The total number of declared bytes of the generated `#[repr(C)]` struct:
all padding arrays plus all field device sizes. -/
def totalSize (fields : List FieldFact) : Nat :=
  fieldEnd fields fields.length

/-- The `struct_alignment` fold of the generated code:
`fold(min_struct_alignment, |last, field| max(field ALIGNMENT, last))`. -/
def structAlignment (min_struct_alignment : Nat) (fields : List FieldFact) : Nat :=
  fields.foldl (fun last f => max f.alignment last) min_struct_alignment

/-- The generated layout-trait impl sets `PAD_AT_END = true` unconditionally. -/
def struct_pad_at_end : Bool :=
  true

/-- The layout data computed by the generated items for one record. -/
structure StructLayout where
  paddings : List Nat
  offsets : List Nat
  alignment : Nat
  pad_at_end : Bool
  total_size : Nat
deriving Repr, DecidableEq

/-- Assemble every generated layout quantity for a validated field list. -/
def buildLayout (min_struct_alignment : Nat) (fields : List FieldFact) : StructLayout :=
  { paddings := (List.range fields.length).map (paddingBefore fields)
  , offsets := (List.range fields.length).map (offsetOf fields)
  , alignment := structAlignment min_struct_alignment fields
  , pad_at_end := struct_pad_at_end
  , total_size := totalSize fields }

/-- The shape of the derive input, as matched by `EmitOptions::emit` on
`input.data` / `data.fields`. -/
inductive InputData where
  | structNamed (fields : List FieldFact)
  | structUnnamed
  | structUnit
  | enumData
  | unionData
deriving Repr, DecidableEq

/-- The shape match at the top of `EmitOptions::emit`: named-field structs
proceed to layout generation; tuple structs, unit structs, enums and unions
panic before any offset or size is computed. -/
def emit (min_struct_alignment : Nat) : InputData → Except String StructLayout
  | .structNamed fields => .ok (buildLayout min_struct_alignment fields)
  | .structUnnamed => .error "Tuple structs are not supported"
  | .structUnit => .error "Unit structs are not supported"
  | .enumData => .error "Only structs are supported"
  | .unionData => .error "Only structs are supported"

/-- An alignment supplied by a layout-trait impl: a positive power of two. -/
def Pow2 (n : Nat) : Prop :=
  ∃ k, n = 2 ^ k

/-- A field's conversion capability: its layout facts plus the
`as_trait_method` / `from_trait_method` of its own type, viewed at the byte
level (a device value is its Pod byte sequence). -/
structure FieldConv (H : Type) where
  fact : FieldFact
  toDev : H → List Nat
  fromDev : List Nat → H

/-- The layout facts of a conversion list's fields. -/
def convFacts {H : Type} (cs : List (FieldConv H)) : List FieldFact :=
  cs.map (fun c => c.fact)

/-- The device bytes written for field `i` by `as_trait_method`:
`self.field_i.as_trait_method()`. -/
def dataChunk {H : Type} (cs : List (FieldConv H)) (hs : List H) (i : Nat) : List Nat :=
  match cs[i]?, hs[i]? with
  | some c, some h => c.toDev h
  | _, _ => []

/-- The byte image of the generated `#[repr(C)]` struct restricted to its
first `i` original fields: for each field, the `[u8; align()]` padding array
(zero-filled by `..Zeroable::zeroed()`) followed by the field's device
bytes. -/
def deviceBytesUpTo {H : Type} (cs : List (FieldConv H)) (hs : List H) : Nat → List Nat
  | 0 => []
  | i + 1 =>
    deviceBytesUpTo cs hs i
      ++ List.replicate (paddingBefore (convFacts cs) i) 0
      ++ dataChunk cs hs i

/-- The `as_trait_method` of the generated impl, at the byte level: all
padding arrays zero-filled, each data field converted from the host value. -/
def to_device {H : Type} (cs : List (FieldConv H)) (hs : List H) : List Nat :=
  deviceBytesUpTo cs hs cs.length

/-- The bytes of field `i`'s data inside a device byte sequence. -/
def field_bytes (facts : List FieldFact) (bytes : List Nat) (i : Nat) : List Nat :=
  (bytes.drop (offsetOf facts i)).take (factAt facts i).size

/-- Helper for `from_device`: convert each remaining field from its device
bytes, `i` being the index of the first remaining field. -/
def fromDeviceAux {H : Type} (facts : List FieldFact) (bytes : List Nat) :
    Nat → List (FieldConv H) → List H
  | _, [] => []
  | i, c :: cs => c.fromDev (field_bytes facts bytes i) :: fromDeviceAux facts bytes (i + 1) cs

/-- The `from_trait_method` of the generated impl, at the byte level: each
host field recovered from the device bytes at the field's offset; padding
bytes are never read. -/
def from_device {H : Type} (cs : List (FieldConv H)) (bytes : List Nat) : List H :=
  fromDeviceAux (convFacts cs) bytes 0 cs

/-- The concrete two-field scenario from the spec: a 4-byte scalar followed
by a vec3-like field of size 12 and alignment 16, under a minimum struct
alignment of 16. -/
def vec3Fields : List FieldFact :=
  [⟨4, 4, false⟩, ⟨12, 16, false⟩]

/-- A concrete nesting scenario: a pad-at-end field of alignment 4 followed
by a field of smaller alignment 2. -/
def nestedFields : List FieldFact :=
  [⟨8, 4, true⟩, ⟨4, 2, false⟩]

/-- A concrete one-byte field conversion of alignment 1 (identity on the
single byte). -/
def byteConv : FieldConv Nat :=
  ⟨⟨1, 1, false⟩, fun h => [h], fun bs => bs.getD 0 0⟩

/-- A concrete one-byte field conversion of alignment 4. -/
def byteConv4 : FieldConv Nat :=
  ⟨⟨1, 4, false⟩, fun h => [h], fun bs => bs.getD 0 0⟩

/-- A concrete two-field conversion list: layout is byte 0 data, bytes 1-3
padding, byte 4 data. -/
def demoConvs : List (FieldConv Nat) :=
  [byteConv, byteConv4]

/-- Concrete host values for the demo record. -/
def demoHosts : List Nat :=
  [5, 7]

/-- A concrete device byte sequence for the demo record whose padding bytes
are all zero. -/
def demoDevice : List Nat :=
  [9, 0, 0, 0, 8]

/-! ### Arithmetic helper lemmas -/

theorem align_offset_lt (off a : Nat) (ha : 0 < a) : align_offset off a < a :=
  Nat.mod_lt _ ha

theorem align_offset_add_mod (off a : Nat) (ha : 0 < a) :
    (off + align_offset off a) % a = 0 := by
  have hr : off % a < a := Nat.mod_lt _ ha
  unfold align_offset
  rcases Nat.eq_zero_or_pos (off % a) with h | h
  · rw [h, Nat.sub_zero, Nat.mod_self, Nat.add_zero, h]
  · have h1 : (a - off % a) % a = a - off % a := Nat.mod_eq_of_lt (by omega)
    rw [h1, Nat.add_mod]
    have h2 : off % a + (a - off % a) % a = a := by
      rw [h1]; omega
    rw [h2, Nat.mod_self]

theorem align_offset_min (off a : Nat) (ha : 0 < a) :
    ∀ s, (off + s) % a = 0 → align_offset off a ≤ s := by
  intro s hs
  by_contra hlt
  push_neg at hlt
  have h1 : a ∣ off + align_offset off a :=
    Nat.dvd_of_mod_eq_zero (align_offset_add_mod off a ha)
  have h2 : a ∣ off + s := Nat.dvd_of_mod_eq_zero hs
  have h3 : a ∣ (off + align_offset off a) - (off + s) := Nat.dvd_sub' h1 h2
  have h4 : (off + align_offset off a) - (off + s) = align_offset off a - s := by omega
  rw [h4] at h3
  have h5 : 0 < align_offset off a - s := by omega
  have h6 : a ≤ align_offset off a - s := Nat.le_of_dvd h5 h3
  have h7 : align_offset off a < a := align_offset_lt off a ha
  omega

theorem Pow2.pos {n : Nat} (h : Pow2 n) : 0 < n := by
  obtain ⟨k, rfl⟩ := h
  exact Nat.pow_pos (by norm_num)

theorem pow2_dvd_max (a b : Nat) (ha : Pow2 a) (hb : Pow2 b) :
    a ∣ max a b ∧ b ∣ max a b := by
  obtain ⟨i, rfl⟩ := ha
  obtain ⟨j, rfl⟩ := hb
  rcases Nat.le_total i j with h | h
  · have hle : (2 : Nat) ^ i ≤ 2 ^ j := Nat.pow_le_pow_right (by norm_num) h
    rw [Nat.max_eq_right hle]
    exact ⟨pow_dvd_pow 2 h, dvd_rfl⟩
  · have hle : (2 : Nat) ^ j ≤ 2 ^ i := Nat.pow_le_pow_right (by norm_num) h
    rw [Nat.max_eq_left hle]
    exact ⟨dvd_rfl, pow_dvd_pow 2 h⟩

/-! ### Layout helper lemmas -/

theorem factAt_mem (fields : List FieldFact) (i : Nat) (h : i < fields.length) :
    factAt fields i ∈ fields := by
  unfold factAt
  rw [List.getElem?_eq_getElem h]
  exact List.getElem_mem h

theorem requiredAlignment_pos (fields : List FieldFact) (i : Nat)
    (hi : i < fields.length) (hv : ∀ f ∈ fields, Pow2 f.alignment) :
    0 < requiredAlignment fields i := by
  have h1 : 0 < (factAt fields i).alignment := (hv _ (factAt_mem fields i hi)).pos
  unfold requiredAlignment
  omega

theorem fieldEnd_succ (fields : List FieldFact) (i : Nat) :
    fieldEnd fields (i + 1) = offsetOf fields i + (factAt fields i).size := rfl

theorem fieldEnd_le_succ (fields : List FieldFact) (i : Nat) :
    fieldEnd fields i ≤ fieldEnd fields (i + 1) := by
  rw [fieldEnd_succ]
  unfold offsetOf
  omega

theorem fieldEnd_mono (fields : List FieldFact) {i j : Nat} (hij : i ≤ j) :
    fieldEnd fields i ≤ fieldEnd fields j := by
  induction j with
  | zero =>
    obtain rfl : i = 0 := Nat.le_zero.mp hij
    exact le_rfl
  | succ j ih =>
    rcases Nat.eq_or_lt_of_le hij with rfl | h
    · exact le_rfl
    · exact le_trans (ih (Nat.lt_succ_iff.mp h)) (fieldEnd_le_succ fields j)

/-! ### Conversion helper lemmas -/

theorem convFacts_length {H : Type} (cs : List (FieldConv H)) :
    (convFacts cs).length = cs.length :=
  List.length_map cs _

theorem factAt_convFacts {H : Type} (cs : List (FieldConv H)) (i : Nat)
    (c : FieldConv H) (h : cs[i]? = some c) :
    factAt (convFacts cs) i = c.fact := by
  unfold factAt convFacts
  rw [List.getElem?_map, h]
  rfl

theorem dataChunk_eq {H : Type} (cs : List (FieldConv H)) (hs : List H) (i : Nat)
    (c : FieldConv H) (h : H) (hc : cs[i]? = some c) (hh : hs[i]? = some h) :
    dataChunk cs hs i = c.toDev h := by
  unfold dataChunk
  rw [hc, hh]

theorem deviceBytesUpTo_length {H : Type} (cs : List (FieldConv H)) (hs : List H)
    (hsz : ∀ j, j < cs.length →
      (dataChunk cs hs j).length = (factAt (convFacts cs) j).size) :
    ∀ i, i ≤ cs.length →
      (deviceBytesUpTo cs hs i).length = fieldEnd (convFacts cs) i := by
  intro i
  induction i with
  | zero => intro _; rfl
  | succ i ih =>
    intro hi
    have h1 := ih (by omega)
    have h2 := hsz i (by omega)
    simp only [deviceBytesUpTo, List.length_append, List.length_replicate, h1, h2]
    show _ = fieldEnd (convFacts cs) (i + 1)
    rw [fieldEnd_succ]
    unfold offsetOf paddingBefore
    omega

theorem deviceBytesUpTo_split {H : Type} (cs : List (FieldConv H)) (hs : List H) :
    ∀ i j, i ≤ j → ∃ t, deviceBytesUpTo cs hs j = deviceBytesUpTo cs hs i ++ t := by
  intro i j hij
  induction j with
  | zero =>
    obtain rfl : i = 0 := Nat.le_zero.mp hij
    exact ⟨[], by simp⟩
  | succ j ih =>
    rcases Nat.eq_or_lt_of_le hij with rfl | h
    · exact ⟨[], by simp⟩
    · obtain ⟨t, ht⟩ := ih (Nat.lt_succ_iff.mp h)
      refine ⟨t ++ (List.replicate (paddingBefore (convFacts cs) j) 0 ++ dataChunk cs hs j), ?_⟩
      simp only [deviceBytesUpTo, ht, List.append_assoc]

theorem to_device_decomp {H : Type} (cs : List (FieldConv H)) (hs : List H)
    (i : Nat) (hi : i < cs.length) :
    ∃ t, to_device cs hs =
      (deviceBytesUpTo cs hs i ++ List.replicate (paddingBefore (convFacts cs) i) 0)
        ++ (dataChunk cs hs i ++ t) := by
  obtain ⟨t, ht⟩ := deviceBytesUpTo_split cs hs (i + 1) cs.length hi
  refine ⟨t, ?_⟩
  rw [to_device, ht]
  simp only [deviceBytesUpTo, List.append_assoc]

theorem field_bytes_to_device {H : Type} (cs : List (FieldConv H)) (hs : List H)
    (i : Nat) (hi : i < cs.length)
    (hsz : ∀ j, j < cs.length →
      (dataChunk cs hs j).length = (factAt (convFacts cs) j).size) :
    field_bytes (convFacts cs) (to_device cs hs) i = dataChunk cs hs i := by
  obtain ⟨t, ht⟩ := to_device_decomp cs hs i hi
  have hlen : (deviceBytesUpTo cs hs i ++
      List.replicate (paddingBefore (convFacts cs) i) 0).length =
      offsetOf (convFacts cs) i := by
    rw [List.length_append, List.length_replicate,
      deviceBytesUpTo_length cs hs hsz i (by omega)]
    rfl
  unfold field_bytes
  rw [ht, List.drop_left' hlen, List.take_left' (hsz i hi)]

theorem to_device_padding_zero {H : Type} (cs : List (FieldConv H)) (hs : List H)
    (hsz : ∀ j, j < cs.length →
      (dataChunk cs hs j).length = (factAt (convFacts cs) j).size)
    (i : Nat) (hi : i < cs.length) (b : Nat)
    (hb1 : fieldEnd (convFacts cs) i ≤ b) (hb2 : b < offsetOf (convFacts cs) i) :
    (to_device cs hs)[b]? = some 0 := by
  obtain ⟨t, ht⟩ := to_device_decomp cs hs i hi
  have hlen1 : (deviceBytesUpTo cs hs i).length = fieldEnd (convFacts cs) i :=
    deviceBytesUpTo_length cs hs hsz i (by omega)
  rw [ht, List.append_assoc, List.getElem?_append_right (by omega),
    List.getElem?_append_left]
  · rw [hlen1]
    have hlt : b - fieldEnd (convFacts cs) i < paddingBefore (convFacts cs) i := by
      have : offsetOf (convFacts cs) i =
          fieldEnd (convFacts cs) i + paddingBefore (convFacts cs) i := rfl
      omega
    simp [hlt]
  · rw [List.length_replicate, hlen1]
    have : offsetOf (convFacts cs) i =
        fieldEnd (convFacts cs) i + paddingBefore (convFacts cs) i := rfl
    omega

theorem fromDeviceAux_getElem {H : Type} (facts : List FieldFact) (bytes : List Nat) :
    ∀ (cs : List (FieldConv H)) (k j : Nat),
      (fromDeviceAux facts bytes k cs)[j]? =
        (cs[j]?).map (fun c => c.fromDev (field_bytes facts bytes (k + j))) := by
  intro cs
  induction cs with
  | nil => intro k j; simp [fromDeviceAux]
  | cons c cs ih =>
    intro k j
    cases j with
    | zero => simp [fromDeviceAux]
    | succ j =>
      simp only [fromDeviceAux, List.getElem?_cons_succ]
      rw [ih (k + 1) j]
      have : k + 1 + j = k + (j + 1) := by omega
      rw [this]

theorem from_device_getElem {H : Type} (cs : List (FieldConv H)) (bytes : List Nat)
    (j : Nat) :
    (from_device cs bytes)[j]? =
      (cs[j]?).map (fun c => c.fromDev (field_bytes (convFacts cs) bytes j)) := by
  rw [from_device, fromDeviceAux_getElem]
  simp

theorem fromDeviceAux_length {H : Type} (facts : List FieldFact) (bytes : List Nat) :
    ∀ (cs : List (FieldConv H)) (k : Nat),
      (fromDeviceAux facts bytes k cs).length = cs.length := by
  intro cs
  induction cs with
  | nil => intro k; rfl
  | cons c cs ih => intro k; simp [fromDeviceAux, ih]

theorem from_device_length {H : Type} (cs : List (FieldConv H)) (bytes : List Nat) :
    (from_device cs bytes).length = cs.length :=
  fromDeviceAux_length (convFacts cs) bytes cs 0

theorem chunk_sized {H : Type} (cs : List (FieldConv H)) (hs : List H)
    (hlen : hs.length = cs.length)
    (hsz : ∀ c ∈ cs, ∀ h, (c.toDev h).length = c.fact.size) :
    ∀ j, j < cs.length →
      (dataChunk cs hs j).length = (factAt (convFacts cs) j).size := by
  intro j hj
  have hc := List.getElem?_eq_getElem hj
  have hh := List.getElem?_eq_getElem (show j < hs.length by omega)
  rw [dataChunk_eq cs hs j _ _ hc hh, factAt_convFacts cs j _ hc]
  exact hsz _ (List.getElem_mem hj) _

theorem field_bytes_length (facts : List FieldFact) (d : List Nat) (i : Nat)
    (hi : i < facts.length) (hlen : totalSize facts ≤ d.length) :
    (field_bytes facts d i).length = (factAt facts i).size := by
  unfold field_bytes
  rw [List.length_take, List.length_drop]
  have h1 : offsetOf facts i + (factAt facts i).size ≤ totalSize facts := by
    rw [← fieldEnd_succ]
    exact fieldEnd_mono facts hi
  omega

theorem interval_union (fields : List FieldFact) (i b : Nat) :
    ((fieldEnd fields i ≤ b ∧ b < offsetOf fields i) ∨
      (offsetOf fields i ≤ b ∧ b < offsetOf fields i + (factAt fields i).size)) ↔
    (fieldEnd fields i ≤ b ∧ b < fieldEnd fields (i + 1)) := by
  rw [fieldEnd_succ]
  have h : fieldEnd fields i ≤ offsetOf fields i := by
    unfold offsetOf
    omega
  omega

theorem exists_interval (fields : List FieldFact) :
    ∀ n b, b < fieldEnd fields n →
      ∃ i, i < n ∧ fieldEnd fields i ≤ b ∧ b < fieldEnd fields (i + 1) := by
  intro n
  induction n with
  | zero =>
    intro b hb
    rw [show fieldEnd fields 0 = 0 from rfl] at hb
    omega
  | succ n ih =>
    intro b hb
    rcases Nat.lt_or_ge b (fieldEnd fields n) with h | h
    · obtain ⟨i, h1, h2, h3⟩ := ih b h
      exact ⟨i, by omega, h2, h3⟩
    · exact ⟨n, by omega, h, hb⟩

theorem foldl_max_eq (fields : List FieldFact) :
    ∀ acc : Nat, fields.foldl (fun last f => max f.alignment last) acc =
      max acc ((fields.map (fun f => f.alignment)).foldr max 0) := by
  induction fields with
  | nil => intro acc; simp
  | cons f fs ih =>
    intro acc
    simp only [List.foldl_cons, List.map_cons, List.foldr_cons]
    rw [ih]
    omega

theorem vec3_pow2 : ∀ f ∈ vec3Fields, Pow2 f.alignment := by
  intro f hf
  rcases List.mem_cons.mp hf with rfl | hf2
  · exact ⟨2, rfl⟩
  · rcases List.mem_cons.mp hf2 with rfl | hf3
    · exact ⟨4, rfl⟩
    · cases hf3

theorem nested_pow2 : ∀ f ∈ nestedFields, Pow2 f.alignment := by
  intro f hf
  rcases List.mem_cons.mp hf with rfl | hf2
  · exact ⟨2, rfl⟩
  · rcases List.mem_cons.mp hf2 with rfl | hf3
    · exact ⟨1, rfl⟩
    · cases hf3

theorem demo_sz : ∀ c ∈ demoConvs, ∀ h, (c.toDev h).length = c.fact.size := by
  intro c hc h
  rcases List.mem_cons.mp hc with rfl | hc2
  · rfl
  · rcases List.mem_cons.mp hc2 with rfl | hc3
    · rfl
    · cases hc3

theorem demo_inv : ∀ c ∈ demoConvs, ∀ h, c.fromDev (c.toDev h) = h := by
  intro c hc h
  rcases List.mem_cons.mp hc with rfl | hc2
  · rfl
  · rcases List.mem_cons.mp hc2 with rfl | hc3
    · rfl
    · cases hc3

theorem demo_inv2 : ∀ c ∈ demoConvs, ∀ bs : List Nat,
    bs.length = c.fact.size → c.toDev (c.fromDev bs) = bs := by
  intro c hc bs hbs
  rcases List.mem_cons.mp hc with rfl | hc2
  · obtain ⟨a, rfl⟩ := List.length_eq_one.mp hbs
    rfl
  · rcases List.mem_cons.mp hc2 with rfl | hc3
    · obtain ⟨a, rfl⟩ := List.length_eq_one.mp hbs
      rfl
    · cases hc3

/-! ### Claim theorems -/

/-- C1: for every field index, with the running offset being the sum of
sizes and paddings of all strictly earlier fields, the padding inserted
before the field is `align_offset` of that running offset at
`required_alignment = max(field ALIGNMENT, trailing requirement)`, and for
every non-negative offset and positive power-of-two alignment,
`align_offset` returns the minimal non-negative `r < required_alignment`
making `offset + r` a multiple of `required_alignment`. -/
theorem padding_before_minimal (fields : List FieldFact) (i : Nat)
    (hi : i < fields.length) (hv : ∀ f ∈ fields, Pow2 f.alignment) :
    (∀ off : Nat,
      align_offset off (requiredAlignment fields i) < requiredAlignment fields i ∧
      (off + align_offset off (requiredAlignment fields i)) %
        requiredAlignment fields i = 0 ∧
      ∀ s : Nat, (off + s) % requiredAlignment fields i = 0 →
        align_offset off (requiredAlignment fields i) ≤ s) ∧
    paddingBefore fields i =
      align_offset (fieldEnd fields i) (requiredAlignment fields i) ∧
    requiredAlignment fields i =
      max (factAt fields i).alignment (trailingReq fields i) := by
  have ha := requiredAlignment_pos fields i hi hv
  exact ⟨fun off => ⟨align_offset_lt off _ ha, align_offset_add_mod off _ ha,
    align_offset_min off _ ha⟩, rfl, rfl⟩

/-- Witness for C1 at the concrete two-field scenario, field index 1. -/
theorem padding_before_minimal_witness :
    1 < vec3Fields.length ∧
    align_offset 4 (requiredAlignment vec3Fields 1) < requiredAlignment vec3Fields 1 ∧
    paddingBefore vec3Fields 1 =
      align_offset (fieldEnd vec3Fields 1) (requiredAlignment vec3Fields 1) :=
  ⟨by decide,
   ((padding_before_minimal vec3Fields 1 (by decide) vec3_pow2).1 4).1,
   (padding_before_minimal vec3Fields 1 (by decide) vec3_pow2).2.1⟩

/-- C2: if field `i` has `PAD_AT_END = true` and alignment `A`, the offset
of field `i + 1` is a multiple of `A` regardless of field `i + 1`'s own
alignment, and the trailing requirement for the first field is 0. -/
theorem pad_at_end_forces_next_offset (fields : List FieldFact) (i : Nat)
    (hi : i + 1 < fields.length) (hv : ∀ f ∈ fields, Pow2 f.alignment)
    (hp : (factAt fields i).pad_at_end = true) :
    offsetOf fields (i + 1) % (factAt fields i).alignment = 0 ∧
    trailingReq fields 0 = 0 := by
  refine ⟨?_, rfl⟩
  have hA : requiredAlignment fields (i + 1) =
      max (factAt fields (i + 1)).alignment (factAt fields i).alignment := by
    simp [requiredAlignment, trailingReq, hp]
  have hp1 : Pow2 (factAt fields (i + 1)).alignment :=
    hv _ (factAt_mem fields (i + 1) hi)
  have hp0 : Pow2 (factAt fields i).alignment :=
    hv _ (factAt_mem fields i (by omega))
  have hdvd1 : (factAt fields i).alignment ∣ requiredAlignment fields (i + 1) := by
    rw [hA]
    exact (pow2_dvd_max _ _ hp1 hp0).2
  have hpos : 0 < requiredAlignment fields (i + 1) :=
    requiredAlignment_pos fields (i + 1) hi hv
  have hdvd2 : requiredAlignment fields (i + 1) ∣ offsetOf fields (i + 1) := by
    unfold offsetOf paddingBefore
    exact Nat.dvd_of_mod_eq_zero (align_offset_add_mod _ _ hpos)
  exact Nat.mod_eq_zero_of_dvd (dvd_trans hdvd1 hdvd2)

/-- Witness for C2 at the concrete nesting scenario. -/
theorem pad_at_end_forces_next_offset_witness :
    1 < nestedFields.length ∧ (factAt nestedFields 0).pad_at_end = true ∧
    offsetOf nestedFields 1 % (factAt nestedFields 0).alignment = 0 :=
  ⟨by decide, by decide,
   (pad_at_end_forces_next_offset nestedFields 0 (by decide) nested_pow2
     (by decide)).1⟩

/-- C3: the total declared byte size of the produced device-side structure
is exactly the offset of the last field plus the size of the last field
(no rounding up to the struct alignment), and a zero-field record has total
size 0. -/
theorem total_size_tight (fields : List FieldFact) (hne : fields ≠ []) :
    totalSize fields =
      offsetOf fields (fields.length - 1) +
        (factAt fields (fields.length - 1)).size ∧
    totalSize ([] : List FieldFact) = 0 := by
  refine ⟨?_, rfl⟩
  have h : fields.length - 1 + 1 = fields.length := by
    have : fields.length ≠ 0 := fun h0 => hne (List.eq_nil_of_length_eq_zero h0)
    omega
  calc totalSize fields = fieldEnd fields fields.length := rfl
    _ = fieldEnd fields (fields.length - 1 + 1) := by rw [h]
    _ = _ := fieldEnd_succ fields _

/-- Witness for C3 at the concrete two-field scenario. -/
theorem total_size_tight_witness :
    vec3Fields ≠ [] ∧
    totalSize vec3Fields =
      offsetOf vec3Fields (vec3Fields.length - 1) +
        (factAt vec3Fields (vec3Fields.length - 1)).size :=
  ⟨by decide, (total_size_tight vec3Fields (by decide)).1⟩

/-- C4: the classic vec3-after-scalar scenario with fields
`[{size 4, align 4, no pad}, {size 12, align 16, no pad}]` and minimum
struct alignment 16 yields offsets 0 and 16, padding 12 before field 1,
total size 28, struct alignment 16 and struct pad-at-end true. -/
theorem vec3_scenario :
    offsetOf vec3Fields 0 = 0 ∧ paddingBefore vec3Fields 1 = 12 ∧
    offsetOf vec3Fields 1 = 16 ∧ totalSize vec3Fields = 28 ∧
    structAlignment 16 vec3Fields = 16 ∧ struct_pad_at_end = true := by
  decide

/-- C5: the generated struct `ALIGNMENT` equals the maximum of
`min_struct_alignment` and all fields' alignments; in particular it is
`min_struct_alignment` for a zero-field record and
`max(A, min_struct_alignment)` for a single field of alignment `A`. -/
theorem struct_alignment_is_max (m : Nat) (fields : List FieldFact) :
    structAlignment m fields =
      max m ((fields.map (fun f => f.alignment)).foldr max 0) ∧
    structAlignment m [] = m ∧
    ∀ f : FieldFact, structAlignment m [f] = max f.alignment m := by
  exact ⟨foldl_max_eq fields m, rfl, fun f => rfl⟩

/-- C8: `EmitOptions::emit` fails exactly on enums, unions, tuple structs
and unit structs, with an error naming the unsupported shape, before any
layout is computed; for every named-field struct (zero fields included) it
totally produces the layout. -/
theorem shape_gate (m : Nat) :
    (∀ fields, emit m (InputData.structNamed fields) =
      Except.ok (buildLayout m fields)) ∧
    emit m InputData.structUnnamed =
      Except.error "Tuple structs are not supported" ∧
    emit m InputData.structUnit =
      Except.error "Unit structs are not supported" ∧
    emit m InputData.enumData = Except.error "Only structs are supported" ∧
    emit m InputData.unionData = Except.error "Only structs are supported" ∧
    ∀ d : InputData, (∃ msg, emit m d = Except.error msg) ↔
      ∀ fields, d ≠ InputData.structNamed fields := by
  refine ⟨fun _ => rfl, rfl, rfl, rfl, rfl, ?_⟩
  intro d
  cases d with
  | structNamed fields =>
    constructor
    · rintro ⟨msg, hmsg⟩
      cases hmsg
    · intro h
      exact absurd rfl (h fields)
  | structUnnamed => simp [emit]
  | structUnit => simp [emit]
  | enumData => simp [emit]
  | unionData => simp [emit]

/-- C9: every byte position below the total size belongs to exactly one
field's region, either its explicit padding subregion or its device-data
subregion, the two being disjoint; the regions tile the layout with no
other bytes. -/
theorem byte_partition (fields : List FieldFact) (b : Nat)
    (hb : b < totalSize fields) :
    (∃ i, (i < fields.length ∧
        ((fieldEnd fields i ≤ b ∧ b < offsetOf fields i) ∨
          (offsetOf fields i ≤ b ∧
            b < offsetOf fields i + (factAt fields i).size))) ∧
      ∀ j, (j < fields.length ∧
        ((fieldEnd fields j ≤ b ∧ b < offsetOf fields j) ∨
          (offsetOf fields j ≤ b ∧
            b < offsetOf fields j + (factAt fields j).size))) → j = i) ∧
    ∀ i, ¬((fieldEnd fields i ≤ b ∧ b < offsetOf fields i) ∧
        (offsetOf fields i ≤ b ∧
          b < offsetOf fields i + (factAt fields i).size)) := by
  constructor
  · obtain ⟨i, hi, h1, h2⟩ := exists_interval fields fields.length b hb
    refine ⟨i, ⟨hi, (interval_union fields i b).mpr ⟨h1, h2⟩⟩, ?_⟩
    rintro j ⟨hj, hj2⟩
    rw [interval_union] at hj2
    by_contra hne
    rcases Nat.lt_or_ge j i with h | h
    · have hle : fieldEnd fields (j + 1) ≤ fieldEnd fields i :=
        fieldEnd_mono fields (by omega)
      omega
    · have hij : i < j := by omega
      have hle : fieldEnd fields (i + 1) ≤ fieldEnd fields j :=
        fieldEnd_mono fields (by omega)
      omega
  · intro i
    omega

/-- Witness for C9 at the concrete two-field scenario, byte 13 (a padding
byte of field 1's region). -/
theorem byte_partition_witness :
    13 < totalSize vec3Fields ∧
    (∃ i, (i < vec3Fields.length ∧
        ((fieldEnd vec3Fields i ≤ 13 ∧ 13 < offsetOf vec3Fields i) ∨
          (offsetOf vec3Fields i ≤ 13 ∧
            13 < offsetOf vec3Fields i + (factAt vec3Fields i).size))) ∧
      ∀ j, (j < vec3Fields.length ∧
        ((fieldEnd vec3Fields j ≤ 13 ∧ 13 < offsetOf vec3Fields j) ∨
          (offsetOf vec3Fields j ≤ 13 ∧
            13 < offsetOf vec3Fields j + (factAt vec3Fields j).size))) → j = i) ∧
    ∀ i, ¬((fieldEnd vec3Fields i ≤ 13 ∧ 13 < offsetOf vec3Fields i) ∧
        (offsetOf vec3Fields i ≤ 13 ∧
          13 < offsetOf vec3Fields i + (factAt vec3Fields i).size)) :=
  ⟨by decide, byte_partition vec3Fields 13 (by decide)⟩

/-- C6: for every host value of a validated record type, converting to the
device representation and back yields the original value on every field,
assuming each field type's own conversions are mutually inverse (and its
device size fact is exact). -/
theorem host_round_trip (H : Type) (cs : List (FieldConv H)) (hs : List H)
    (hlen : hs.length = cs.length)
    (hsz : ∀ c ∈ cs, ∀ h, (c.toDev h).length = c.fact.size)
    (hinv : ∀ c ∈ cs, ∀ h, c.fromDev (c.toDev h) = h) :
    from_device cs (to_device cs hs) = hs := by
  have hchunk := chunk_sized cs hs hlen hsz
  apply List.ext_getElem?
  intro j
  rw [from_device_getElem]
  rcases Nat.lt_or_ge j cs.length with hj | hj
  · have hc := List.getElem?_eq_getElem hj
    have hh := List.getElem?_eq_getElem (show j < hs.length by omega)
    rw [hc, Option.map_some', field_bytes_to_device cs hs j hj hchunk,
      dataChunk_eq cs hs j _ _ hc hh, hinv _ (List.getElem_mem hj) _, hh]
  · rw [List.getElem?_eq_none hj, List.getElem?_eq_none (show hs.length ≤ j by omega)]
    rfl

/-- Witness for C6 at the concrete two-field conversion list. -/
theorem host_round_trip_witness :
    demoHosts.length = demoConvs.length ∧
    from_device demoConvs (to_device demoConvs demoHosts) = demoHosts :=
  ⟨rfl, host_round_trip Nat demoConvs demoHosts rfl demo_sz demo_inv⟩

/-- C7: structurally equal host values produce bit-identical device byte
sequences, and every byte inside a padding region of the produced device
value is zero (padding is never value-dependent). -/
theorem to_device_deterministic (H : Type) (cs : List (FieldConv H))
    (hs1 hs2 : List H) (heq : hs1 = hs2) (hlen : hs1.length = cs.length)
    (hsz : ∀ c ∈ cs, ∀ h, (c.toDev h).length = c.fact.size) :
    to_device cs hs1 = to_device cs hs2 ∧
    ∀ i, i < cs.length → ∀ b, fieldEnd (convFacts cs) i ≤ b →
      b < offsetOf (convFacts cs) i → (to_device cs hs1)[b]? = some 0 := by
  subst heq
  refine ⟨rfl, ?_⟩
  intro i hi b hb1 hb2
  exact to_device_padding_zero cs hs1 (chunk_sized cs hs1 hlen hsz) i hi b hb1 hb2

/-- Witness for C7 at the concrete two-field conversion list, padding byte 2. -/
theorem to_device_deterministic_witness :
    to_device demoConvs demoHosts = to_device demoConvs demoHosts ∧
    (to_device demoConvs demoHosts)[2]? = some 0 :=
  ⟨(to_device_deterministic Nat demoConvs demoHosts demoHosts rfl rfl demo_sz).1,
   (to_device_deterministic Nat demoConvs demoHosts demoHosts rfl rfl demo_sz).2
     1 (by decide) 2 (by decide) (by decide)⟩

theorem deviceBytesUpTo_eq_take {H : Type} (cs : List (FieldConv H)) (hs : List H)
    (d : List Nat) (hlen : d.length = totalSize (convFacts cs))
    (hchunk : ∀ j, j < cs.length →
      dataChunk cs hs j = field_bytes (convFacts cs) d j)
    (hzero : ∀ i, i < cs.length → ∀ b, fieldEnd (convFacts cs) i ≤ b →
      b < offsetOf (convFacts cs) i → d[b]? = some 0) :
    ∀ i, i ≤ cs.length →
      deviceBytesUpTo cs hs i = d.take (fieldEnd (convFacts cs) i) := by
  have hcl := convFacts_length cs
  intro i
  induction i with
  | zero => intro _; rfl
  | succ i ih =>
    intro hi
    have h0 := ih (by omega)
    have hoff : offsetOf (convFacts cs) i =
        fieldEnd (convFacts cs) i + paddingBefore (convFacts cs) i := rfl
    have hend : offsetOf (convFacts cs) i + (factAt (convFacts cs) i).size ≤
        d.length := by
      rw [hlen, ← fieldEnd_succ]
      exact fieldEnd_mono (convFacts cs) (show i + 1 ≤ (convFacts cs).length by omega)
    have hpad : (d.drop (fieldEnd (convFacts cs) i)).take
        (paddingBefore (convFacts cs) i) =
        List.replicate (paddingBefore (convFacts cs) i) 0 := by
      rw [List.eq_replicate_iff]
      constructor
      · rw [List.length_take, List.length_drop]
        omega
      · intro x hx
        obtain ⟨n, hn⟩ := List.mem_iff_getElem?.mp hx
        have hnlt : n < paddingBefore (convFacts cs) i := by
          have h1 := (List.getElem?_eq_some.mp hn).1
          rw [List.length_take] at h1
          omega
        rw [List.getElem?_take_of_lt hnlt, List.getElem?_drop] at hn
        have h2 := hzero i (by omega) (fieldEnd (convFacts cs) i + n)
          (by omega) (by omega)
        rw [h2] at hn
        exact (Option.some_inj.mp hn).symm
    have hsucc : fieldEnd (convFacts cs) (i + 1) =
        fieldEnd (convFacts cs) i +
          (paddingBefore (convFacts cs) i + (factAt (convFacts cs) i).size) := by
      rw [fieldEnd_succ]
      omega
    show deviceBytesUpTo cs hs i ++
        List.replicate (paddingBefore (convFacts cs) i) 0 ++ dataChunk cs hs i =
      d.take (fieldEnd (convFacts cs) (i + 1))
    rw [h0, hchunk i (by omega), hsucc, List.take_add, List.take_add,
      List.drop_drop]
    rw [← hoff, hpad, List.append_assoc]
    rfl

/-- C10: converting a device value to the host representation and back
yields a device value that agrees with the original on every data field and
has every padding byte zero; it equals the original exactly when the
original's padding bytes are already all zero (assuming each field type's
own conversions are mutually inverse). -/
theorem device_round_trip (H : Type) (cs : List (FieldConv H)) (d : List Nat)
    (hlen : d.length = totalSize (convFacts cs))
    (hinv : ∀ c ∈ cs, ∀ bs : List Nat,
      bs.length = c.fact.size → c.toDev (c.fromDev bs) = bs) :
    (∀ i, i < cs.length →
      field_bytes (convFacts cs) (to_device cs (from_device cs d)) i =
        field_bytes (convFacts cs) d i) ∧
    (∀ i, i < cs.length → ∀ b, fieldEnd (convFacts cs) i ≤ b →
      b < offsetOf (convFacts cs) i →
      (to_device cs (from_device cs d))[b]? = some 0) ∧
    (to_device cs (from_device cs d) = d ↔
      ∀ i, i < cs.length → ∀ b, fieldEnd (convFacts cs) i ≤ b →
        b < offsetOf (convFacts cs) i → d[b]? = some 0) := by
  have hcl := convFacts_length cs
  have htot : totalSize (convFacts cs) ≤ d.length := by omega
  have hchunk_eq : ∀ j, j < cs.length →
      dataChunk cs (from_device cs d) j = field_bytes (convFacts cs) d j := by
    intro j hj
    have hc := List.getElem?_eq_getElem hj
    have hh : (from_device cs d)[j]? =
        some ((cs.get ⟨j, hj⟩).fromDev (field_bytes (convFacts cs) d j)) := by
      rw [from_device_getElem, hc, Option.map_some']
      rfl
    rw [dataChunk_eq cs (from_device cs d) j _ _ hc hh]
    have hfb := field_bytes_length (convFacts cs) d j (by omega) htot
    rw [factAt_convFacts cs j _ hc] at hfb
    exact hinv _ (List.getElem_mem hj) _ hfb
  have hchunk_sz : ∀ j, j < cs.length →
      (dataChunk cs (from_device cs d) j).length =
        (factAt (convFacts cs) j).size := by
    intro j hj
    rw [hchunk_eq j hj]
    exact field_bytes_length (convFacts cs) d j (by omega) htot
  refine ⟨?_, ?_, ?_⟩
  · intro i hi
    rw [field_bytes_to_device cs _ i hi hchunk_sz, hchunk_eq i hi]
  · intro i hi b hb1 hb2
    exact to_device_padding_zero cs _ hchunk_sz i hi b hb1 hb2
  · constructor
    · intro heqd i hi b hb1 hb2
      rw [← heqd]
      exact to_device_padding_zero cs _ hchunk_sz i hi b hb1 hb2
    · intro hzero
      have hmain := deviceBytesUpTo_eq_take cs (from_device cs d) d hlen
        hchunk_eq hzero cs.length le_rfl
      rw [to_device, hmain]
      have hfe : fieldEnd (convFacts cs) cs.length = totalSize (convFacts cs) := by
        unfold totalSize
        rw [hcl]
      rw [hfe, ← hlen, List.take_length]

/-- Witness for C10 at the concrete two-field conversion list and an
all-zero-padding device value. -/
theorem device_round_trip_witness :
    demoDevice.length = totalSize (convFacts demoConvs) ∧
    (to_device demoConvs (from_device demoConvs demoDevice) = demoDevice ↔
      ∀ i, i < demoConvs.length → ∀ b,
        fieldEnd (convFacts demoConvs) i ≤ b →
        b < offsetOf (convFacts demoConvs) i → demoDevice[b]? = some 0) :=
  ⟨by decide,
   (device_round_trip Nat demoConvs demoDevice (by decide) demo_inv2).2.2⟩
